import Mathlib

/-!
Verification development for the `bmex` historical-data pipeline
(`src/bmex.py`).  The Python source is shallowly embedded: the filesystem
is an association list from structured file locations to CSV row lists,
the two storage routines (`_store_quotes_trades`, `_store_bars`) are pure
state-passing functions, the two polling loops are modelled with explicit
response oracles and fuel, and `main`'s channel sequencing is modelled
with `Except` for propagating HTTP exceptions.
-/

namespace Bmex

/-- A calendar date, mirroring Python's `datetime.date` fields used by the
script (`.year`, `.month`, `.day`). -/
structure Date where
  year : Nat
  month : Nat
  day : Nat
deriving DecidableEq, Repr

/-- Strict lexicographic order on dates, as Python compares `datetime.date`
values (`date > end.date()` in `_store_bars`). -/
def Date.lt (a b : Date) : Prop :=
  a.year < b.year ∨ (a.year = b.year ∧
    (a.month < b.month ∨ (a.month = b.month ∧ a.day < b.day)))

instance (a b : Date) : Decidable (Date.lt a b) := by
  unfold Date.lt; infer_instance

/-- Non-strict date order (`start <= end` in `poll_quotes_trades`). -/
def Date.le (a b : Date) : Prop := Date.lt a b ∨ a = b

instance (a b : Date) : Decidable (Date.le a b) := by
  unfold Date.le; infer_instance

/-- One CSV row: a list of string fields, as produced by `csv.reader` /
consumed by `csv.writer`. -/
abbrev Row := List String

/-- The filesystem: an association list from file locations to file
contents (a list of CSV rows).  A key that is absent models a file that
does not exist on disk. -/
abbrev FS (α : Type) := List (α × List Row)

/-- `os.path.exists` / opening for read: first entry with the given key. -/
def lookupFS {α : Type} [DecidableEq α] : FS α → α → Option (List Row)
  | [], _ => none
  | (k, v) :: rest, x => if x = k then some v else lookupFS rest x

/-- `os.remove`: drop the file at the given key. -/
def removeFS {α : Type} [DecidableEq α] (fs : FS α) (k : α) : FS α :=
  fs.filter (fun p => p.1 ≠ k)

/-- `os.path.exists`. -/
def existsFS {α : Type} [DecidableEq α] (fs : FS α) (k : α) : Bool :=
  (lookupFS fs k).isSome

/-- Replace (or create) the file at key `k` with contents `v`. -/
def setFS {α : Type} [DecidableEq α] (fs : FS α) (k : α) (v : List Row) : FS α :=
  (k, v) :: removeFS fs k

/-- `open(_file, "a")` followed by `writerow(r)`: append one row, creating
the file when absent. -/
def appendRowFS {α : Type} [DecidableEq α] (fs : FS α) (k : α) (r : Row) : FS α :=
  setFS fs k ((lookupFS fs k).getD [] ++ [r])

/-- `bars_header` from the source. -/
def bars_header : Row :=
  ["timestamp", "symbol", "open", "high", "low", "close", "trades", "volume",
   "vwap", "lastSize", "turnover", "homeNotional", "foreignNotional"]

/-- `quotes_header` from the source. -/
def quotes_header : Row :=
  ["timestamp", "symbol", "bidSize", "bidPrice", "askPrice", "askSize"]

/-- `trades_header` from the source. -/
def trades_header : Row :=
  ["timestamp", "symbol", "side", "size", "price", "tickDirection",
   "trdMatchID", "grossValue", "homeNotional", "foreignNotional"]

/-- `h = trades_header if channel == "trade" else quotes_header`
(`_store_quotes_trades`). -/
def chanHeader (channel : String) : Row :=
  if channel = "trade" then trades_header else quotes_header

/-- `row[0].replace("D", "T", 1)` on the character list: replace the first
occurrence of `D` by `T`. -/
def replaceFirstDT : List Char → List Char
  | [] => []
  | c :: cs => if c = 'D' then 'T' :: cs else c :: replaceFirstDT cs

/-- Timestamp normalization applied by `_store_quotes_trades` before
persisting a row. -/
def normTs (s : String) : String := String.mk (replaceFirstDT s.toList)

/-- One archive row as parsed by `csv.reader` in `_store_quotes_trades`:
`row[0]` is the timestamp, `row[1]` the symbol, the remaining fields are
kept opaque. -/
structure QTRow where
  ts : String
  sym : String
  rest : List String
deriving DecidableEq, Repr

/-- Structured form of the destination path
`{path}/{base}/{symbol}/{channel}s/{start.year}/{start.month}/{YYYY-MM-DD}.csv`
built by `_store_quotes_trades`. -/
structure QTLoc where
  root : String
  base : String
  symbol : String
  channelDir : String
  year : Nat
  month : Nat
  fileDate : Date
deriving DecidableEq, Repr

/-- The path `_store_quotes_trades` computes for a matching row: the
directory uses `start.year`/`start.month` and the file name is the start
date, so every component comes from the day being processed. -/
def qtLoc (root base symbol channel : String) (day : Date) : QTLoc :=
  ⟨root, base, symbol, channel ++ "s", day.year, day.month, day⟩

/-- The row loop of `_store_quotes_trades`.  `new` is the shared
first-touch flag (one per call, not one per destination file), `hdr` is
the per-symbol `header` dict. -/
def storeQTAux (symbols : List String) (channel root base : String) (day : Date) :
    List QTRow → Bool → (String → Bool) → FS QTLoc → FS QTLoc
  | [], _, _, fs => fs
  | row :: rest, new, hdr, fs =>
    if row.sym ∈ symbols then
      let loc := qtLoc root base row.sym channel day
      let fs1 := if new && existsFS fs loc then removeFS fs loc else fs
      let fs2 := if hdr row.sym then appendRowFS fs1 loc (chanHeader channel) else fs1
      let hdr2 : String → Bool :=
        if hdr row.sym then (fun s => if s = row.sym then false else hdr s) else hdr
      let fs3 := appendRowFS fs2 loc (normTs row.ts :: row.sym :: row.rest)
      storeQTAux symbols channel root base day rest false hdr2 fs3
    else storeQTAux symbols channel root base day rest new hdr fs

/-- `_store_quotes_trades`: processes the rows of one daily archive with
`new = True` and `header = {symbol: True for symbol in symbols}`. -/
def store_quotes_trades (day : Date) (symbols : List String)
    (channel root base : String) (rows : List QTRow) (fs : FS QTLoc) : FS QTLoc :=
  storeQTAux symbols channel root base day rows true (fun _ => true) fs

/-- One bar row handed to `_store_bars`.  `date` models
`parse(row["timestamp"]).date()`; `ts :: rest` is the row as serialized by
`csv.DictWriter` with fieldnames `bars_header` (whose first field is the
timestamp). -/
structure BarRow where
  ts : String
  date : Date
  rest : List String
deriving DecidableEq, Repr

/-- Structured form of the destination path
`{path}/{base}/{symbol}/{channel}/{bar}/{date.year}/{date.month}/{YYYY-MM-DD}.csv`
built by `_store_bars`. -/
structure BarLoc where
  root : String
  base : String
  symbol : String
  channel : String
  bar : String
  year : Nat
  month : Nat
  fileDate : Date
deriving DecidableEq, Repr

/-- The path `_store_bars` computes for a row: every date component comes
from the row's own timestamp date. -/
def barLoc (root base symbol channel bar : String) (d : Date) : BarLoc :=
  ⟨root, base, symbol, channel, bar, d.year, d.month, d⟩

/-- `_store_bars`.  Returns the updated filesystem together with the
Python return value: `None` (here `none`) on the early return triggered by
a row dated past `end`, otherwise the final value of the `header`
variable (the last date written). -/
def store_bars (root base symbol channel bar : String) (endD : Date) :
    List BarRow → Option Date → FS BarLoc → FS BarLoc × Option Date
  | [], h, fs => (fs, h)
  | q :: rest, h, fs =>
    if Date.lt endD q.date then (fs, none)
    else
      let loc := barLoc root base symbol channel bar q.date
      if h = some q.date then
        store_bars root base symbol channel bar endD rest h
          (appendRowFS fs loc (q.ts :: q.rest))
      else
        let fs1 := if existsFS fs loc then removeFS fs loc else fs
        let fs2 := appendRowFS fs1 loc bars_header
        store_bars root base symbol channel bar endD rest (some q.date)
          (appendRowFS fs2 loc (q.ts :: q.rest))

/-- The destination path of the first row of the archive whose symbol is
in the requested set: the only path whose pre-existing file
`_store_quotes_trades` can remove (the `new` flag is cleared there). -/
def firstMatchLoc (symbols : List String) (channel root base : String) (day : Date) :
    List QTRow → Option QTLoc
  | [] => none
  | row :: rest =>
    if row.sym ∈ symbols then some (qtLoc root base row.sym channel day)
    else firstMatchLoc symbols channel root base day rest

/-- Outcome of the per-day retry loop in `poll_quotes_trades`, with the
number of requests issued.  `hang` marks fuel exhaustion of the unbounded
`while True` loop. -/
inductive DayOutcome where
  | success (attempts : Nat)
  | notYet (attempts : Nat)
  | fatal (status : Nat) (attempts : Nat)
  | hang
deriving DecidableEq, Repr

/-- The `while True` retry loop of `poll_quotes_trades` for one day.
`resp i` is the HTTP status of the `i`-th request (0-based), `recent`
models `start.date() == today.date() or start.date() == yesterday.date()`,
`cnt` is the `count` variable.  `r.raise_for_status()` raises exactly for
statuses `>= 400`; for a non-200 status below 400 it does nothing and the
loop keeps retrying. -/
def fetchDay (resp : Nat → Nat) (recent : Bool) : Nat → Nat → Nat → DayOutcome
  | 0, _, _ => .hang
  | fuel + 1, i, cnt =>
    let s := resp i
    if s = 200 then .success (i + 1)
    else
      let c2 := cnt + 1
      if c2 = 10 then
        if s = 404 ∧ recent = true then .notYet (i + 1)
        else if 400 ≤ s then .fatal s (i + 1)
        else fetchDay resp recent fuel (i + 1) c2
      else fetchDay resp recent fuel (i + 1) c2

/-- Result of the quotes/trades channel loop: the returned success string,
the returned not-yet-available string (carrying the day), the
`requests.HTTPError` raised by `raise_for_status` (status and day and
number of requests for that day), or fuel exhaustion. -/
inductive QTResult where
  | success
  | notYetAvailable (d : Date)
  | httpError (status : Nat) (d : Date) (attempts : Nat)
  | spin
deriving DecidableEq, Repr

/-- Gregorian leap year. -/
def leapYear (y : Nat) : Bool :=
  (y % 4 = 0 && y % 100 ≠ 0) || y % 400 = 0

/-- Days in a Gregorian month. -/
def daysInMonth (y m : Nat) : Nat :=
  if m = 2 then (if leapYear y then 29 else 28)
  else if m = 4 ∨ m = 6 ∨ m = 9 ∨ m = 11 then 30
  else 31

/-- `start += timedelta(days=1)`. -/
def nextDay (d : Date) : Date :=
  if d.day < daysInMonth d.year d.month then ⟨d.year, d.month, d.day + 1⟩
  else if d.month < 12 then ⟨d.year, d.month + 1, 1⟩
  else ⟨d.year + 1, 1, 1⟩

/-- The day loop of `poll_quotes_trades` (`while start <= end`), returning
the channel result together with the list of days for which a download was
attempted.  `resp d i` is the status of the `i`-th request for day `d`;
storage is not modelled here (it is covered by `store_quotes_trades`). -/
def poll_quotes_trades (resp : Date → Nat → Nat) (recent : Date → Bool)
    (endD : Date) (fuelI : Nat) : Nat → Date → QTResult × List Date
  | 0, d => if Date.le d endD then (.spin, []) else (.success, [])
  | fuelD + 1, d =>
    if Date.le d endD then
      match fetchDay (resp d) (recent d) fuelI 0 0 with
      | .success _ =>
        let t := poll_quotes_trades resp recent endD fuelI fuelD (nextDay d)
        (t.1, d :: t.2)
      | .notYet _ => (.notYetAvailable d, [d])
      | .fatal s n => (.httpError s d n, [d])
      | .hang => (.spin, [d])
    else (.success, [])

/-- One conditional block of `main`: if the channel is requested, run it
and record its returned string in the report; an exception
(`Except.error`) propagates out of `main` uncaught. -/
def addChan (report : List (String × String)) (name : String) (enabled : Bool)
    (res : Except Nat String) : Except Nat (List (String × String)) :=
  if enabled then
    match res with
    | .error s => .error s
    | .ok v => .ok (report ++ [(name, v)])
  else .ok report

/-- The channel sequencing and report of `main`: trades, then quotes, then
bars, each guarded by membership in the requested channel set.  The result
is the printed report, or the uncaught exception that aborted the run
(there is no try/except anywhere in `main`). -/
def runMain (channels : List String) (tr qu br : Except Nat String) :
    Except Nat (List (String × String)) :=
  match addChan [] "trades" (decide ("trades" ∈ channels)) tr with
  | .error s => .error s
  | .ok r1 =>
    match addChan r1 "quotes" (decide ("quotes" ∈ channels)) qu with
    | .error s => .error s
    | .ok r2 => addChan r2 "bars" (decide ("bars" ∈ channels)) br

/-- What a `poll_quotes_trades` call looks like from `main`: a returned
string, or a raised `HTTPError`. -/
def qtExcept : QTResult → Except Nat String
  | .success => .ok "Success - all data downloaded and stored."
  | .notYetAvailable _ => .ok "Failed to download - data not (yet) available."
  | .httpError s _ _ => .error s
  | .spin => .ok "spin"

/-- Events of the bar fetcher, for the rate-limit analysis: an HTTP
request to the bars endpoint, or `time.sleep(secs)`. -/
inductive BEvent where
  | request
  | sleep (secs : Nat)
deriving DecidableEq, Repr

/-- Response of the bars endpoint: HTTP 429, or a JSON payload. -/
inductive BarResp where
  | r429
  | ok (data : List BarRow)

/-- Cursor stride of `poll_bars` in minutes: `timedelta(minutes=500)`,
`timedelta(minutes=500*5)`, `timedelta(hours=500)`, else
`timedelta(days=500)`. -/
def barStrideMin (bar : String) : Nat :=
  if bar = "1m" then 500
  else if bar = "5m" then 500 * 5
  else if bar = "1h" then 500 * 60
  else 500 * 1440

/-- The `while st < (nd + timedelta(days=1))` loop of `poll_bars` for one
(symbol, resolution) pair, emitting its request/sleep events.  Time is in
minutes; `ndLim` is `nd + 1 day`; `req` is the shared request counter
(`req += 1; if req % 30 == 0: sleep(60); req = 0` before each request);
`idx` indexes the response oracle.  A 429 response sleeps 60 s and retries
the same cursor; an empty payload sleeps 1 s and advances the cursor by
one day; data advances the cursor by the stride.  Returns the events, the
final counter, and the next oracle index. -/
def barsCursor (resp : Nat → BarResp) (ndLim stride : Nat) :
    Nat → Nat → Nat → Nat → List BEvent × Nat × Nat
  | 0, _, req, idx => ([], req, idx)
  | fuel + 1, st, req, idx =>
    if st < ndLim then
      let req1 := req + 1
      let pre : List BEvent := if req1 % 30 = 0 then [.sleep 60] else []
      let req2 := if req1 % 30 = 0 then 0 else req1
      match resp idx with
      | .r429 =>
        let k := barsCursor resp ndLim stride fuel st req2 (idx + 1)
        (pre ++ .request :: .sleep 60 :: k.1, k.2)
      | .ok [] =>
        let k := barsCursor resp ndLim stride fuel (st + 1440) req2 (idx + 1)
        (pre ++ .request :: .sleep 1 :: k.1, k.2)
      | .ok (_ :: _) =>
        let k := barsCursor resp ndLim stride fuel (st + stride) req2 (idx + 1)
        (pre ++ .request :: k.1, k.2)
    else ([], req, idx)

/-- The `for symbol in symbols: for bar in bars:` nesting of `poll_bars`,
one stride per (symbol, resolution) pair, threading the shared request
counter and the oracle index through every pair. -/
def pollBarsPairs (resp : Nat → BarResp) (startMin ndLim fuel : Nat) :
    List Nat → Nat → Nat → List BEvent × Nat × Nat
  | [], req, idx => ([], req, idx)
  | stride :: rest, req, idx =>
    let k1 := barsCursor resp ndLim stride fuel startMin req idx
    let k2 := pollBarsPairs resp startMin ndLim fuel rest k1.2.1 k1.2.2
    (k1.1 ++ k2.1, k2.2)

/-- The event trace of one `poll_bars` run: `req = 0` initially, every
(symbol, resolution) pair walked with the shared counter. -/
def pollBarsTrace (resp : Nat → BarResp) (symbols bars : List String)
    (startMin ndMin fuel : Nat) : List BEvent :=
  (pollBarsPairs resp startMin (ndMin + 1440) fuel
    ((symbols.map (fun _ => bars.map barStrideMin)).flatten) 0 0).1

/-- Checks that every maximal run of requests between two sleeps of at
least 60 seconds contains at most 30 requests; `c` is the number of
requests already emitted in the currently open run. -/
def groupsChk : List BEvent → Nat → Bool
  | [], _ => true
  | .request :: es, c => decide (c + 1 ≤ 30) && groupsChk es (c + 1)
  | .sleep s :: es, c => if 60 ≤ s then groupsChk es 0 else groupsChk es c

/-- The open-run request count after a list of events. -/
def groupEnd : List BEvent → Nat → Nat
  | [], c => c
  | .request :: es, c => groupEnd es (c + 1)
  | .sleep s :: es, c => groupEnd es (if 60 ≤ s then 0 else c)

/-- Number of requests issued during the half-open wall-clock window
`[lo, lo + 60)`, starting the clock at `t`; requests are instantaneous and
only `time.sleep` advances the clock. -/
def countIn : List BEvent → Nat → Nat → Nat
  | [], _, _ => 0
  | .request :: es, t, lo =>
    (if lo ≤ t ∧ t < lo + 60 then 1 else 0) + countIn es t lo
  | .sleep s :: es, t, lo => countIn es (t + s) lo

/-- The events strictly after the `(n+1)`-th request event. -/
def afterNthReq : List BEvent → Nat → List BEvent
  | [], _ => []
  | .request :: es, 0 => es
  | .request :: es, n + 1 => afterNthReq es n
  | .sleep _ :: es, n => afterNthReq es n

/-- Numeric value of a digit character. -/
def digitVal (c : Char) : Nat := c.toNat - 48

/-- The calendar date encoded in the leading `YYYY-MM-DD` of an ISO-like
timestamp string, as both archive timestamps and bar timestamps carry it;
`none` when the string does not start with such a prefix. -/
def tsDate (s : String) : Option Date :=
  match s.toList with
  | a :: b :: c :: d :: s1 :: e :: f :: s2 :: g :: h :: _ =>
    if s1 = '-' ∧ s2 = '-' ∧ a.isDigit ∧ b.isDigit ∧ c.isDigit ∧ d.isDigit ∧
        e.isDigit ∧ f.isDigit ∧ g.isDigit ∧ h.isDigit then
      some ⟨digitVal a * 1000 + digitVal b * 100 + digitVal c * 10 + digitVal d,
            digitVal e * 10 + digitVal f, digitVal g * 10 + digitVal h⟩
    else none
  | _ => none

/-- Invariant of the row loop of `_store_quotes_trades`, starting from an
empty filesystem: every existing file is a destination of this day's walk,
its symbol's header flag has been cleared, its first row is the channel
header, and every later row is a normalized row of the already-processed
input `src`; conversely a cleared header flag means the symbol's file
exists. -/
def qtInv (symbols : List String) (channel root base : String) (day : Date)
    (src : List QTRow) (hdr : String → Bool) (fs : FS QTLoc) : Prop :=
  (∀ loc l, lookupFS fs loc = some l →
    loc.symbol ∈ symbols ∧ loc = qtLoc root base loc.symbol channel day ∧
      hdr loc.symbol = false ∧
      ∃ ds, l = chanHeader channel :: ds ∧
        ∀ r ∈ ds, ∃ q, q ∈ src ∧ q.sym = loc.symbol ∧
          r = normTs q.ts :: q.sym :: q.rest) ∧
  (∀ s, hdr s = false → lookupFS fs (qtLoc root base s channel day) ≠ none)

/-- Invariant of the row loop of `_store_bars`, starting from an empty
filesystem and no header sentinel: every existing file has the bars header
as first row, every later row is a stored row of the already-processed
input `src` dated at the file's date and not past `end`, and the header
sentinel's file exists. -/
def barsInv (root base symbol channel bar : String) (endD : Date)
    (src : List BarRow) (h : Option Date) (fs : FS BarLoc) : Prop :=
  (∀ loc l, lookupFS fs loc = some l →
    loc = barLoc root base symbol channel bar loc.fileDate ∧
      ∃ ds, l = bars_header :: ds ∧
        ∀ r ∈ ds, ∃ q, q ∈ src ∧ q.date = loc.fileDate ∧ Date.le q.date endD ∧
          r = q.ts :: q.rest) ∧
  (∀ d, h = some d → lookupFS fs (barLoc root base symbol channel bar d) ≠ none)

/-! ### Basic lemmas on dates and the filesystem model -/

theorem Date.le_iff_not_lt (a b : Date) : Date.le a b ↔ ¬ Date.lt b a := by
  obtain ⟨y1, m1, d1⟩ := a
  obtain ⟨y2, m2, d2⟩ := b
  simp only [Date.le, Date.lt, Date.mk.injEq]
  constructor
  · rintro (h | h) <;> omega
  · intro h; omega

theorem Date.lt_of_lt_of_le {a b c : Date} (h1 : Date.lt a b) (h2 : Date.le b c) :
    Date.lt a c := by
  obtain ⟨y1, m1, d1⟩ := a
  obtain ⟨y2, m2, d2⟩ := b
  obtain ⟨y3, m3, d3⟩ := c
  simp only [Date.le, Date.lt, Date.mk.injEq] at *
  obtain (h2 | h2) := h2 <;> omega

theorem lookupFS_removeFS {α : Type} [DecidableEq α] (fs : FS α) (k x : α) :
    lookupFS (removeFS fs k) x = if x = k then none else lookupFS fs x := by
  induction fs with
  | nil => simp [removeFS, lookupFS]
  | cons p rest ih =>
    obtain ⟨pk, pv⟩ := p
    unfold removeFS at ih ⊢
    by_cases hk : pk = k
    · subst hk
      rw [List.filter_cons_of_neg (by simp)]
      rw [ih]
      by_cases hx : x = pk
      · simp [hx]
      · simp [lookupFS, hx]
    · rw [List.filter_cons_of_pos (by simp [hk])]
      by_cases hx : x = pk
      · subst hx
        simp [lookupFS, hk]
      · simp only [ne_eq, decide_not] at ih
        simp [lookupFS, hx, ih]

theorem lookupFS_setFS {α : Type} [DecidableEq α] (fs : FS α) (k x : α) (v : List Row) :
    lookupFS (setFS fs k v) x = if x = k then some v else lookupFS fs x := by
  by_cases hx : x = k <;> simp [setFS, lookupFS, hx, lookupFS_removeFS]

theorem lookupFS_appendRowFS {α : Type} [DecidableEq α] (fs : FS α) (k x : α) (r : Row) :
    lookupFS (appendRowFS fs k r) x =
      if x = k then some ((lookupFS fs k).getD [] ++ [r]) else lookupFS fs x := by
  simp [appendRowFS, lookupFS_setFS]

theorem removeFS_of_lookup_none {α : Type} [DecidableEq α] (fs : FS α) (k : α)
    (h : lookupFS fs k = none) : removeFS fs k = fs := by
  induction fs with
  | nil => rfl
  | cons p rest ih =>
    obtain ⟨pk, pv⟩ := p
    by_cases hx : k = pk
    · subst hx; simp [lookupFS] at h
    · simp [lookupFS, hx] at h
      simp [removeFS, List.filter, Ne.symm hx] at ih ⊢
      exact ih h

/-! ### The quotes/trades storer on a fresh filesystem -/

theorem qtInv_mono_src {symbols : List String} {channel root base : String} {day : Date}
    {src src2 : List QTRow} {hdr : String → Bool} {fs : FS QTLoc}
    (hsub : ∀ q, q ∈ src → q ∈ src2)
    (h : qtInv symbols channel root base day src hdr fs) :
    qtInv symbols channel root base day src2 hdr fs := by
  obtain ⟨h1, h2⟩ := h
  refine ⟨fun loc l hl => ?_, h2⟩
  obtain ⟨ha, hb, hc, ds, hds, hprov⟩ := h1 loc l hl
  refine ⟨ha, hb, hc, ds, hds, fun r hr => ?_⟩
  obtain ⟨q, hq, hqs, hqr⟩ := hprov r hr
  exact ⟨q, hsub q hq, hqs, hqr⟩

theorem qtLoc_ne_of_symbol_ne {root base channel : String} {day : Date} {s1 s2 : String}
    (h : s1 ≠ s2) : qtLoc root base s1 channel day ≠ qtLoc root base s2 channel day := by
  intro hc
  exact h (by simpa [qtLoc] using congrArg QTLoc.symbol hc)

theorem storeQTAux_inv (symbols : List String) (channel root base : String) (day : Date) :
    ∀ (rows : List QTRow) (new : Bool) (hdr : String → Bool) (fs : FS QTLoc)
      (src : List QTRow),
      qtInv symbols channel root base day src hdr fs →
      (new = true → ∀ s, hdr s = true) →
      ∃ hdr2, qtInv symbols channel root base day (src ++ rows) hdr2
        (storeQTAux symbols channel root base day rows new hdr fs) := by
  intro rows
  induction rows with
  | nil =>
    intro new hdr fs src hinv _
    exact ⟨hdr, by simpa using hinv⟩
  | cons row rest ih =>
    intro new hdr fs src hinv hnew
    by_cases hm : row.sym ∈ symbols
    · by_cases hA : hdr row.sym = true
      · -- header flag still set for this symbol: its file cannot exist yet
        have hnone : lookupFS fs (qtLoc root base row.sym channel day) = none := by
          cases hl : lookupFS fs (qtLoc root base row.sym channel day) with
          | none => rfl
          | some l =>
            obtain ⟨_, _, hc, _⟩ := hinv.1 _ l hl
            simp only [qtLoc] at hc
            rw [hA] at hc
            cases hc
        have hex : existsFS fs (qtLoc root base row.sym channel day) = false := by
          simp [existsFS, hnone]
        have hfs2 : lookupFS (appendRowFS fs (qtLoc root base row.sym channel day)
            (chanHeader channel)) (qtLoc root base row.sym channel day)
            = some [chanHeader channel] := by
          rw [lookupFS_appendRowFS, if_pos rfl, hnone]
          rfl
        have hstep : qtInv symbols channel root base day (src ++ [row])
            (fun s => if s = row.sym then false else hdr s)
            (appendRowFS (appendRowFS fs (qtLoc root base row.sym channel day)
              (chanHeader channel)) (qtLoc root base row.sym channel day)
              (normTs row.ts :: row.sym :: row.rest)) := by
          constructor
          · intro loc2 l2 hl2
            rw [lookupFS_appendRowFS] at hl2
            by_cases he : loc2 = qtLoc root base row.sym channel day
            · subst he
              rw [if_pos rfl, hfs2] at hl2
              simp only [Option.getD_some, Option.some.injEq] at hl2
              refine ⟨hm, rfl, by simp [qtLoc], [normTs row.ts :: row.sym :: row.rest],
                by rw [← hl2]; rfl, ?_⟩
              intro r hr
              simp only [List.mem_singleton] at hr
              exact ⟨row, List.mem_append_right _ (List.mem_singleton.mpr rfl),
                by simp [qtLoc], hr⟩
            · rw [if_neg he, lookupFS_appendRowFS, if_neg he] at hl2
              obtain ⟨ha, hb, hc, ds, hds, hprov⟩ := hinv.1 loc2 l2 hl2
              refine ⟨ha, hb, ?_, ds, hds, fun r hr => ?_⟩
              · by_cases hs2 : loc2.symbol = row.sym <;> simp [hs2, hc]
              · obtain ⟨q, hq, hqs, hqr⟩ := hprov r hr
                exact ⟨q, List.mem_append_left _ hq, hqs, hqr⟩
          · intro s hs
            by_cases he : s = row.sym
            · subst he
              rw [lookupFS_appendRowFS, if_pos rfl]
              simp
            · have hfs : hdr s = false := by simpa [he] using hs
              have h0 := hinv.2 s hfs
              have hne : qtLoc root base s channel day ≠
                  qtLoc root base row.sym channel day := qtLoc_ne_of_symbol_ne he
              rw [lookupFS_appendRowFS, if_neg hne, lookupFS_appendRowFS, if_neg hne]
              exact h0
        simp only [storeQTAux, if_pos hm, hex, Bool.and_false, Bool.false_eq_true,
          if_false, hA, if_true]
        obtain ⟨hdr3, hinv3⟩ := ih false _ _ (src ++ [row]) hstep (by intro h; cases h)
        refine ⟨hdr3, ?_⟩
        rw [List.append_assoc] at hinv3
        simpa using hinv3
      · -- header flag already cleared: the file exists, the write appends
        have hB : hdr row.sym = false := by
          cases hhh : hdr row.sym with
          | false => rfl
          | true => exact absurd hhh hA
        have hnewF : new = false := by
          cases new with
          | false => rfl
          | true =>
            have := hnew rfl row.sym
            rw [hB] at this
            cases this
        subst hnewF
        obtain ⟨l0, hl0⟩ : ∃ l0, lookupFS fs (qtLoc root base row.sym channel day)
            = some l0 := by
          cases hl : lookupFS fs (qtLoc root base row.sym channel day) with
          | none => exact absurd hl (hinv.2 row.sym hB)
          | some l => exact ⟨l, rfl⟩
        obtain ⟨hm0, hloc0, hc0, ds0, hds0, hprov0⟩ := hinv.1 _ l0 hl0
        have hstep : qtInv symbols channel root base day (src ++ [row]) hdr
            (appendRowFS fs (qtLoc root base row.sym channel day)
              (normTs row.ts :: row.sym :: row.rest)) := by
          constructor
          · intro loc2 l2 hl2
            rw [lookupFS_appendRowFS] at hl2
            by_cases he : loc2 = qtLoc root base row.sym channel day
            · subst he
              rw [if_pos rfl, hl0] at hl2
              simp only [Option.getD_some, Option.some.injEq] at hl2
              rw [hds0] at hl2
              refine ⟨hm, rfl, by simpa [qtLoc] using hB,
                ds0 ++ [normTs row.ts :: row.sym :: row.rest], by rw [← hl2]; simp, ?_⟩
              intro r hr
              rcases List.mem_append.mp hr with hr0 | hr1
              · obtain ⟨q, hq, hqs, hqr⟩ := hprov0 r hr0
                exact ⟨q, List.mem_append_left _ hq, hqs, hqr⟩
              · simp only [List.mem_singleton] at hr1
                exact ⟨row, List.mem_append_right _ (List.mem_singleton.mpr rfl),
                  by simp [qtLoc], hr1⟩
            · rw [if_neg he] at hl2
              obtain ⟨ha, hb, hc, ds, hds, hprov⟩ := hinv.1 loc2 l2 hl2
              refine ⟨ha, hb, hc, ds, hds, fun r hr => ?_⟩
              obtain ⟨q, hq, hqs, hqr⟩ := hprov r hr
              exact ⟨q, List.mem_append_left _ hq, hqs, hqr⟩
          · intro s hs
            by_cases he : s = row.sym
            · subst he
              rw [lookupFS_appendRowFS, if_pos rfl]
              simp
            · have hne : qtLoc root base s channel day ≠
                  qtLoc root base row.sym channel day := qtLoc_ne_of_symbol_ne he
              rw [lookupFS_appendRowFS, if_neg hne]
              exact hinv.2 s hs
        simp only [storeQTAux, if_pos hm, Bool.false_and, Bool.false_eq_true, if_false,
          hB, if_true]
        obtain ⟨hdr3, hinv3⟩ := ih false _ _ (src ++ [row]) hstep (by intro h; cases h)
        refine ⟨hdr3, ?_⟩
        rw [List.append_assoc] at hinv3
        simpa using hinv3
    · simp only [storeQTAux, if_neg hm]
      obtain ⟨hdr3, hinv3⟩ := ih new hdr fs (src ++ [row])
        (qtInv_mono_src (fun q hq => List.mem_append_left _ hq) hinv) hnew
      refine ⟨hdr3, ?_⟩
      rw [List.append_assoc] at hinv3
      simpa using hinv3

/-- The top-level characterization of `store_quotes_trades` on an empty
filesystem: every resulting file is a destination of the processed day,
begins with the channel header, and its remaining rows are exactly
normalized matching input rows. -/
theorem store_quotes_trades_inv (day : Date) (symbols : List String)
    (channel root base : String) (rows : List QTRow) :
    ∃ hdr2, qtInv symbols channel root base day rows hdr2
      (store_quotes_trades day symbols channel root base rows []) := by
  have h0 : qtInv symbols channel root base day [] (fun _ => true) ([] : FS QTLoc) := by
    constructor
    · intro loc l hl
      simp [lookupFS] at hl
    · intro s hs
      cases hs
  obtain ⟨hdr2, h2⟩ := storeQTAux_inv symbols channel root base day rows true
    (fun _ => true) [] [] h0 (fun _ _ => rfl)
  exact ⟨hdr2, by simpa using h2⟩

/-! ### The bars storer on a fresh filesystem -/

theorem barsInv_mono_src {root base symbol channel bar : String} {endD : Date}
    {src src2 : List BarRow} {h : Option Date} {fs : FS BarLoc}
    (hsub : ∀ q, q ∈ src → q ∈ src2)
    (hi : barsInv root base symbol channel bar endD src h fs) :
    barsInv root base symbol channel bar endD src2 h fs := by
  obtain ⟨h1, h2⟩ := hi
  refine ⟨fun loc l hl => ?_, h2⟩
  obtain ⟨ha, ds, hds, hprov⟩ := h1 loc l hl
  refine ⟨ha, ds, hds, fun r hr => ?_⟩
  obtain ⟨q, hq, hq1, hq2, hq3⟩ := hprov r hr
  exact ⟨q, hsub q hq, hq1, hq2, hq3⟩

theorem barLoc_ne_of_date_ne {root base symbol channel bar : String} {d1 d2 : Date}
    (h : d1 ≠ d2) :
    barLoc root base symbol channel bar d1 ≠ barLoc root base symbol channel bar d2 := by
  intro hc
  exact h (by simpa [barLoc] using congrArg BarLoc.fileDate hc)

theorem store_bars_inv (root base symbol channel bar : String) (endD : Date) :
    ∀ (data : List BarRow) (h : Option Date) (fs : FS BarLoc) (src : List BarRow),
      barsInv root base symbol channel bar endD src h fs →
      barsInv root base symbol channel bar endD (src ++ data)
        (store_bars root base symbol channel bar endD data h fs).2
        (store_bars root base symbol channel bar endD data h fs).1 := by
  intro data
  induction data with
  | nil =>
    intro h fs src hi
    simpa [store_bars] using hi
  | cons q rest ih =>
    intro h fs src hi
    by_cases hlt : Date.lt endD q.date
    · simp only [store_bars, if_pos hlt]
      refine ⟨fun loc l hl => ?_, fun d hd => by cases hd⟩
      obtain ⟨ha, ds, hds, hprov⟩ := hi.1 loc l hl
      refine ⟨ha, ds, hds, fun r hr => ?_⟩
      obtain ⟨q2, hq, hq1, hq2, hq3⟩ := hprov r hr
      exact ⟨q2, List.mem_append_left _ hq, hq1, hq2, hq3⟩
    · have hle : Date.le q.date endD := (Date.le_iff_not_lt q.date endD).mpr hlt
      by_cases hh : h = some q.date
      · -- same date as the last written row: pure append
        obtain ⟨l0, hl0⟩ : ∃ l0, lookupFS fs (barLoc root base symbol channel bar q.date)
            = some l0 := by
          cases hl : lookupFS fs (barLoc root base symbol channel bar q.date) with
          | none => exact absurd hl (hi.2 q.date hh)
          | some l => exact ⟨l, rfl⟩
        obtain ⟨ha0, ds0, hds0, hprov0⟩ := hi.1 _ l0 hl0
        have hstep : barsInv root base symbol channel bar endD (src ++ [q]) h
            (appendRowFS fs (barLoc root base symbol channel bar q.date)
              (q.ts :: q.rest)) := by
          constructor
          · intro loc2 l2 hl2
            rw [lookupFS_appendRowFS] at hl2
            by_cases he : loc2 = barLoc root base symbol channel bar q.date
            · subst he
              rw [if_pos rfl, hl0] at hl2
              simp only [Option.getD_some, Option.some.injEq] at hl2
              rw [hds0] at hl2
              refine ⟨rfl, ds0 ++ [q.ts :: q.rest], by rw [← hl2]; simp, fun r hr => ?_⟩
              rcases List.mem_append.mp hr with hr0 | hr1
              · obtain ⟨q2, hq, hq1, hq2, hq3⟩ := hprov0 r hr0
                exact ⟨q2, List.mem_append_left _ hq, hq1, hq2, hq3⟩
              · simp only [List.mem_singleton] at hr1
                exact ⟨q, List.mem_append_right _ (List.mem_singleton.mpr rfl),
                  by simp [barLoc], hle, hr1⟩
            · rw [if_neg he] at hl2
              obtain ⟨ha, ds, hds, hprov⟩ := hi.1 loc2 l2 hl2
              refine ⟨ha, ds, hds, fun r hr => ?_⟩
              obtain ⟨q2, hq, hq1, hq2, hq3⟩ := hprov r hr
              exact ⟨q2, List.mem_append_left _ hq, hq1, hq2, hq3⟩
          · intro d hd
            rw [hh] at hd
            injection hd with hd
            subst hd
            rw [lookupFS_appendRowFS, if_pos rfl]
            simp
        have hres := ih h _ (src ++ [q]) hstep
        simp only [store_bars, if_neg hlt, if_pos hh]
        rw [List.append_assoc] at hres
        simpa using hres
      · -- different date: the destination file is freshly recreated
        have hnone1 : lookupFS (if existsFS fs (barLoc root base symbol channel bar q.date)
            then removeFS fs (barLoc root base symbol channel bar q.date) else fs)
            (barLoc root base symbol channel bar q.date) = none := by
          by_cases hex : existsFS fs (barLoc root base symbol channel bar q.date) = true
          · rw [if_pos hex, lookupFS_removeFS, if_pos rfl]
          · rw [if_neg hex]
            simp only [existsFS, Option.isSome] at hex
            cases hl : lookupFS fs (barLoc root base symbol channel bar q.date) with
            | none => rfl
            | some l => rw [hl] at hex; exact absurd rfl hex
        have hsame : ∀ loc2, loc2 ≠ barLoc root base symbol channel bar q.date →
            lookupFS (if existsFS fs (barLoc root base symbol channel bar q.date)
              then removeFS fs (barLoc root base symbol channel bar q.date) else fs)
              loc2 = lookupFS fs loc2 := by
          intro loc2 he
          by_cases hex : existsFS fs (barLoc root base symbol channel bar q.date) = true
          · rw [if_pos hex, lookupFS_removeFS, if_neg he]
          · rw [if_neg hex]
        have hstep : barsInv root base symbol channel bar endD (src ++ [q])
            (some q.date)
            (appendRowFS (appendRowFS
              (if existsFS fs (barLoc root base symbol channel bar q.date)
                then removeFS fs (barLoc root base symbol channel bar q.date) else fs)
              (barLoc root base symbol channel bar q.date) bars_header)
              (barLoc root base symbol channel bar q.date) (q.ts :: q.rest)) := by
          constructor
          · intro loc2 l2 hl2
            rw [lookupFS_appendRowFS] at hl2
            by_cases he : loc2 = barLoc root base symbol channel bar q.date
            · subst he
              rw [if_pos rfl, lookupFS_appendRowFS, if_pos rfl, hnone1] at hl2
              simp only [Option.getD_none, Option.getD_some, List.nil_append,
                Option.some.injEq] at hl2
              refine ⟨rfl, [q.ts :: q.rest], by rw [← hl2]; rfl, fun r hr => ?_⟩
              simp only [List.mem_singleton] at hr
              exact ⟨q, List.mem_append_right _ (List.mem_singleton.mpr rfl),
                by simp [barLoc], hle, hr⟩
            · rw [if_neg he, lookupFS_appendRowFS, if_neg he, hsame loc2 he] at hl2
              obtain ⟨ha, ds, hds, hprov⟩ := hi.1 loc2 l2 hl2
              refine ⟨ha, ds, hds, fun r hr => ?_⟩
              obtain ⟨q2, hq, hq1, hq2, hq3⟩ := hprov r hr
              exact ⟨q2, List.mem_append_left _ hq, hq1, hq2, hq3⟩
          · intro d hd
            injection hd with hd
            subst hd
            rw [lookupFS_appendRowFS, if_pos rfl]
            simp
        have hres := ih (some q.date) _ (src ++ [q]) hstep
        simp only [store_bars, if_neg hlt, if_neg hh]
        rw [List.append_assoc] at hres
        simpa using hres

/-- Top-level characterization of `_store_bars` from an empty filesystem
and no header sentinel. -/
theorem store_bars_fresh (root base symbol channel bar : String) (endD : Date)
    (data : List BarRow) :
    barsInv root base symbol channel bar endD data
      (store_bars root base symbol channel bar endD data none []).2
      (store_bars root base symbol channel bar endD data none []).1 := by
  have h0 : barsInv root base symbol channel bar endD [] none ([] : FS BarLoc) := by
    constructor
    · intro loc l hl
      simp [lookupFS] at hl
    · intro d hd
      cases hd
  simpa using store_bars_inv root base symbol channel bar endD data none [] [] h0

/-! ### First-touch behaviour of the two storers -/

theorem extend_trans {a b c : List Row} (h1 : ∃ t, a ++ t = b) (h2 : ∃ t, b ++ t = c) :
    ∃ t, a ++ t = c := by
  obtain ⟨t1, h1⟩ := h1
  obtain ⟨t2, h2⟩ := h2
  exact ⟨t1 ++ t2, by rw [← List.append_assoc, h1, h2]⟩

theorem appendRowFS_extends {α : Type} [DecidableEq α] (fs : FS α) (k loc : α) (r : Row) :
    ∃ t, (lookupFS fs loc).getD [] ++ t =
      (lookupFS (appendRowFS fs k r) loc).getD [] := by
  rw [lookupFS_appendRowFS]
  by_cases he : loc = k
  · subst he
    rw [if_pos rfl]
    exact ⟨[r], rfl⟩
  · rw [if_neg he]
    exact ⟨[], List.append_nil _⟩

/-- After the first matching row has been processed (`new = False`), no
file is ever removed: every destination only grows. -/
theorem storeQTAux_appendOnly (symbols : List String) (channel root base : String)
    (day : Date) :
    ∀ (rows : List QTRow) (hdr : String → Bool) (fs : FS QTLoc) (loc : QTLoc),
      ∃ t, (lookupFS fs loc).getD [] ++ t =
        (lookupFS (storeQTAux symbols channel root base day rows false hdr fs) loc).getD [] := by
  intro rows
  induction rows with
  | nil =>
    intro hdr fs loc
    exact ⟨[], List.append_nil _⟩
  | cons row rest ih =>
    intro hdr fs loc
    by_cases hm : row.sym ∈ symbols
    · simp only [storeQTAux, if_pos hm, Bool.false_and, Bool.false_eq_true, if_false]
      refine extend_trans ?_ (ih _ _ loc)
      by_cases hh : hdr row.sym = true
      · rw [if_pos hh]
        exact extend_trans (appendRowFS_extends _ _ _ _) (appendRowFS_extends _ _ _ _)
      · rw [if_neg hh]
        exact appendRowFS_extends _ _ _ _
    · simp only [storeQTAux, if_neg hm]
      exact ih _ _ loc

/-- Any destination other than the first matching row's file only grows
during a `_store_quotes_trades` call: pre-existing content there is never
deleted. -/
theorem storeQT_prefix_off_first (symbols : List String) (channel root base : String)
    (day : Date) :
    ∀ (rows : List QTRow) (new : Bool) (hdr : String → Bool) (fs : FS QTLoc) (loc : QTLoc),
      firstMatchLoc symbols channel root base day rows ≠ some loc →
      ∃ t, (lookupFS fs loc).getD [] ++ t =
        (lookupFS (storeQTAux symbols channel root base day rows new hdr fs) loc).getD [] := by
  intro rows
  induction rows with
  | nil =>
    intro new hdr fs loc _
    exact ⟨[], List.append_nil _⟩
  | cons row rest ih =>
    intro new hdr fs loc hfm
    by_cases hm : row.sym ∈ symbols
    · have hne : loc ≠ qtLoc root base row.sym channel day := by
        intro hc
        exact hfm (by simp [firstMatchLoc, hm, hc])
      simp only [storeQTAux, if_pos hm]
      refine extend_trans ?_ (storeQTAux_appendOnly symbols channel root base day rest _ _ loc)
      have hfs1 : (lookupFS (if new && existsFS fs (qtLoc root base row.sym channel day)
          then removeFS fs (qtLoc root base row.sym channel day) else fs) loc).getD []
          = (lookupFS fs loc).getD [] := by
        by_cases hc : (new && existsFS fs (qtLoc root base row.sym channel day)) = true
        · rw [if_pos hc, lookupFS_removeFS, if_neg hne]
        · rw [if_neg hc]
      refine extend_trans
        (b := (lookupFS (if new && existsFS fs (qtLoc root base row.sym channel day)
          then removeFS fs (qtLoc root base row.sym channel day) else fs) loc).getD [])
        ?_ ?_
      · exact ⟨[], by rw [List.append_nil, hfs1]⟩
      · by_cases hh : hdr row.sym = true
        · rw [if_pos hh]
          exact extend_trans (appendRowFS_extends _ _ _ _) (appendRowFS_extends _ _ _ _)
        · rw [if_neg hh]
          exact appendRowFS_extends _ _ _ _
    · simp only [storeQTAux, if_neg hm]
      refine ih new hdr fs loc ?_
      simpa [firstMatchLoc, hm] using hfm

/-- The first matching row's destination is freshly recreated: the result
of the call does not depend on any pre-existing file at that path. -/
theorem storeQT_first_overwritten (symbols : List String) (channel root base : String)
    (day : Date) :
    ∀ (rows : List QTRow) (hdr : String → Bool) (fs : FS QTLoc) (fm : QTLoc),
      firstMatchLoc symbols channel root base day rows = some fm →
      storeQTAux symbols channel root base day rows true hdr fs =
        storeQTAux symbols channel root base day rows true hdr (removeFS fs fm) := by
  intro rows
  induction rows with
  | nil =>
    intro hdr fs fm hfm
    cases hfm
  | cons row rest ih =>
    intro hdr fs fm hfm
    by_cases hm : row.sym ∈ symbols
    · have hfm2 : fm = qtLoc root base row.sym channel day := by
        simp only [firstMatchLoc, if_pos hm, Option.some.injEq] at hfm
        exact hfm.symm
      subst hfm2
      simp only [storeQTAux, if_pos hm, Bool.true_and]
      have h1 : (if existsFS fs (qtLoc root base row.sym channel day) = true
          then removeFS fs (qtLoc root base row.sym channel day) else fs)
          = removeFS fs (qtLoc root base row.sym channel day) := by
        by_cases hex : existsFS fs (qtLoc root base row.sym channel day) = true
        · rw [if_pos hex]
        · rw [if_neg hex]
          refine (removeFS_of_lookup_none fs _ ?_).symm
          simp only [existsFS, Option.isSome] at hex
          cases hl : lookupFS fs (qtLoc root base row.sym channel day) with
          | none => rfl
          | some l => rw [hl] at hex; exact absurd rfl hex
      have h2 : existsFS (removeFS fs (qtLoc root base row.sym channel day))
          (qtLoc root base row.sym channel day) = false := by
        simp [existsFS, lookupFS_removeFS]
      rw [h1, h2]
      simp
    · simp only [storeQTAux, if_neg hm]
      have hfm2 : firstMatchLoc symbols channel root base day rest = some fm := by
        simpa [firstMatchLoc, hm] using hfm
      exact ih hdr fs fm hfm2

theorem lookupFS_freshSlot {α : Type} [DecidableEq α] (fs : FS α) (k : α) :
    lookupFS (if existsFS fs k then removeFS fs k else fs) k = none := by
  by_cases hex : existsFS fs k = true
  · rw [if_pos hex, lookupFS_removeFS, if_pos rfl]
  · rw [if_neg hex]
    simp only [existsFS, Option.isSome] at hex
    cases hl : lookupFS fs k with
    | none => rfl
    | some l => rw [hl] at hex; exact absurd rfl hex

/-- The delete-before-write decision of `_store_bars` for a single row is
keyed only to whether the row's date equals the current header sentinel:
on a different date the file is recreated from scratch, on the same date
the pre-existing content is appended to. -/
theorem store_bars_single_step (root base symbol channel bar : String) (endD : Date)
    (q : BarRow) (h : Option Date) (fs : FS BarLoc) (hle : Date.le q.date endD) :
    lookupFS (store_bars root base symbol channel bar endD [q] h fs).1
        (barLoc root base symbol channel bar q.date) =
      if h = some q.date
      then some ((lookupFS fs (barLoc root base symbol channel bar q.date)).getD []
        ++ [q.ts :: q.rest])
      else some [bars_header, q.ts :: q.rest] := by
  have hlt : ¬ Date.lt endD q.date := (Date.le_iff_not_lt q.date endD).mp hle
  by_cases hh : h = some q.date
  · simp only [store_bars, if_neg hlt, if_pos hh]
    rw [lookupFS_appendRowFS, if_pos rfl]
  · simp only [store_bars, if_neg hlt, if_neg hh]
    rw [lookupFS_appendRowFS, if_pos rfl, lookupFS_appendRowFS, if_pos rfl,
      lookupFS_freshSlot]
    simp

/-! ### Claims -/

/-- C1, counterexample.  The claim states that the first write to every
destination path deletes any pre-existing file there.  In
`_store_quotes_trades` the `new` flag is shared across all destination
files of a day: with symbols `AAA` and `BBB`, day 2021-03-09 and a
pre-existing file for `BBB`, the first write to `BBB`'s path does not
delete the old contents — the old row survives in front of the freshly
appended header and data row. -/
theorem c1_counterexample :
    lookupFS ([(qtLoc "R" "BITMEX" "BBB" "quote" ⟨2021, 3, 9⟩, [["old"]])] : FS QTLoc)
      (qtLoc "R" "BITMEX" "BBB" "quote" ⟨2021, 3, 9⟩) = some [["old"]] ∧
    lookupFS
      (store_quotes_trades ⟨2021, 3, 9⟩ ["AAA", "BBB"] "quote" "R" "BITMEX"
        [⟨"t1", "AAA", []⟩, ⟨"t2", "BBB", []⟩]
        [(qtLoc "R" "BITMEX" "BBB" "quote" ⟨2021, 3, 9⟩, [["old"]])])
      (qtLoc "R" "BITMEX" "BBB" "quote" ⟨2021, 3, 9⟩)
      = some [["old"], quotes_header, ["t2", "BBB"]] := by
  constructor
  · rfl
  · rfl

/-- C1, amended.  In `_store_quotes_trades`, only the destination path of
the first matching row of the day is freshly recreated (its pre-existing
content never influences the result); every other destination strictly
grows, keeping any pre-existing content as a prefix.  In `_store_bars`,
the delete-before-write decision is keyed only to the last written date:
a row is appended when its date equals the current header sentinel and
its file is recreated from scratch otherwise, even if that date's file was
already freshly recreated earlier in the run. -/
theorem c1_amended :
    (∀ (day : Date) (symbols : List String) (channel root base : String)
        (rows : List QTRow) (fs : FS QTLoc) (loc : QTLoc),
      firstMatchLoc symbols channel root base day rows ≠ some loc →
      ∃ t, (lookupFS fs loc).getD [] ++ t =
        (lookupFS (store_quotes_trades day symbols channel root base rows fs) loc).getD []) ∧
    (∀ (day : Date) (symbols : List String) (channel root base : String)
        (rows : List QTRow) (fs : FS QTLoc) (fm : QTLoc),
      firstMatchLoc symbols channel root base day rows = some fm →
      store_quotes_trades day symbols channel root base rows fs =
        store_quotes_trades day symbols channel root base rows (removeFS fs fm)) ∧
    (∀ (root base symbol channel bar : String) (endD : Date) (q : BarRow)
        (h : Option Date) (fs : FS BarLoc),
      Date.le q.date endD →
      lookupFS (store_bars root base symbol channel bar endD [q] h fs).1
          (barLoc root base symbol channel bar q.date) =
        if h = some q.date
        then some ((lookupFS fs (barLoc root base symbol channel bar q.date)).getD []
          ++ [q.ts :: q.rest])
        else some [bars_header, q.ts :: q.rest]) := by
  refine ⟨?_, ?_, ?_⟩
  · intro day symbols channel root base rows fs loc hfm
    exact storeQT_prefix_off_first symbols channel root base day rows true
      (fun _ => true) fs loc hfm
  · intro day symbols channel root base rows fs fm hfm
    exact storeQT_first_overwritten symbols channel root base day rows
      (fun _ => true) fs fm hfm
  · intro root base symbol channel bar endD q h fs hle
    exact store_bars_single_step root base symbol channel bar endD q h fs hle

/-- C1, witness for the amended theorem: concrete instance of the
append-only part on the `BBB` path of the counterexample run. -/
theorem c1_amended_witness :
    (firstMatchLoc ["AAA", "BBB"] "quote" "R" "BITMEX" ⟨2021, 3, 9⟩
        [⟨"t1", "AAA", []⟩, ⟨"t2", "BBB", []⟩] ≠
      some (qtLoc "R" "BITMEX" "BBB" "quote" ⟨2021, 3, 9⟩)) ∧
    (∃ t, (lookupFS ([(qtLoc "R" "BITMEX" "BBB" "quote" ⟨2021, 3, 9⟩, [["old"]])] : FS QTLoc)
        (qtLoc "R" "BITMEX" "BBB" "quote" ⟨2021, 3, 9⟩)).getD [] ++ t =
      (lookupFS
        (store_quotes_trades ⟨2021, 3, 9⟩ ["AAA", "BBB"] "quote" "R" "BITMEX"
          [⟨"t1", "AAA", []⟩, ⟨"t2", "BBB", []⟩]
          [(qtLoc "R" "BITMEX" "BBB" "quote" ⟨2021, 3, 9⟩, [["old"]])])
        (qtLoc "R" "BITMEX" "BBB" "quote" ⟨2021, 3, 9⟩)).getD []) :=
  ⟨by decide,
   c1_amended.1 ⟨2021, 3, 9⟩ ["AAA", "BBB"] "quote" "R" "BITMEX"
     [⟨"t1", "AAA", []⟩, ⟨"t2", "BBB", []⟩]
     [(qtLoc "R" "BITMEX" "BBB" "quote" ⟨2021, 3, 9⟩, [["old"]])]
     (qtLoc "R" "BITMEX" "BBB" "quote" ⟨2021, 3, 9⟩) (by decide)⟩

/-- C2, counterexample.  The claim states that a quote file's header
lists timestamp, symbol, bid size, bid price, ask size, ask price in that
order; the source's `quotes_header` puts `askPrice` before `askSize`. -/
theorem c2_counterexample :
    quotes_header ≠ ["timestamp", "symbol", "bidSize", "bidPrice", "askSize", "askPrice"] := by
  decide

/-- C2, amended.  The quote header is timestamp, symbol, bidSize,
bidPrice, askPrice, askSize (ask price before ask size); and for a
quotes/trades store starting from no pre-existing files, whose data rows
never literally equal the header row, every output file contains the
channel header exactly once, as its first row. -/
theorem c2_amended :
    quotes_header = ["timestamp", "symbol", "bidSize", "bidPrice", "askPrice", "askSize"] ∧
    ∀ (day : Date) (symbols : List String) (channel root base : String)
      (rows : List QTRow),
      (∀ q ∈ rows, normTs q.ts :: q.sym :: q.rest ≠ chanHeader channel) →
      ∀ loc l, lookupFS (store_quotes_trades day symbols channel root base rows []) loc
          = some l →
        ∃ ds, l = chanHeader channel :: ds ∧ chanHeader channel ∉ ds := by
  refine ⟨rfl, ?_⟩
  intro day symbols channel root base rows hrows loc l hl
  obtain ⟨hdr2, hinv⟩ := store_quotes_trades_inv day symbols channel root base rows
  obtain ⟨_, _, _, ds, hds, hprov⟩ := hinv.1 loc l hl
  refine ⟨ds, hds, fun hmem => ?_⟩
  obtain ⟨q, hq, _, hqr⟩ := hprov _ hmem
  exact hrows q hq (hqr ▸ rfl)

/-- C2, witness for the amended theorem: a concrete single-row store
whose only output file is the quote header followed by the data row. -/
theorem c2_amended_witness :
    (∀ q ∈ ([⟨"t1", "AAA", []⟩] : List QTRow),
      normTs q.ts :: q.sym :: q.rest ≠ chanHeader "quote") ∧
    (∃ ds, [quotes_header, ["t1", "AAA"]] = chanHeader "quote" :: ds ∧
      chanHeader "quote" ∉ ds) :=
  ⟨by decide,
   c2_amended.2 ⟨2021, 3, 9⟩ ["AAA"] "quote" "R" "BITMEX" [⟨"t1", "AAA", []⟩]
     (by decide) (qtLoc "R" "BITMEX" "AAA" "quote" ⟨2021, 3, 9⟩)
     [quotes_header, ["t1", "AAA"]] (by decide)⟩

/-- C3: every record written by either fetcher lands in a file whose path
encodes the record's own calendar date.  For `_store_quotes_trades` the
path is keyed by the archive day, so the property holds exactly when each
archive row's timestamp carries that day (the provider's contract for the
daily dumps); for `_store_bars` the path is derived from the row's parsed
timestamp date unconditionally. -/
theorem c3_partition_correctness :
    (∀ (day : Date) (symbols : List String) (channel root base : String)
        (rows : List QTRow),
      (∀ q ∈ rows, q.sym ∈ symbols → tsDate (normTs q.ts) = some day) →
      ∀ loc l, lookupFS (store_quotes_trades day symbols channel root base rows []) loc
          = some l →
        loc.year = loc.fileDate.year ∧ loc.month = loc.fileDate.month ∧
        ∀ r ∈ l, r ≠ chanHeader channel →
          ∃ t rest0, r = t :: rest0 ∧ tsDate t = some loc.fileDate) ∧
    (∀ (root base symbol channel bar : String) (endD : Date) (data : List BarRow),
      (∀ q ∈ data, tsDate q.ts = some q.date) →
      ∀ loc l, lookupFS (store_bars root base symbol channel bar endD data none []).1 loc
          = some l →
        loc.year = loc.fileDate.year ∧ loc.month = loc.fileDate.month ∧
        ∀ r ∈ l, r ≠ bars_header →
          ∃ t rest0, r = t :: rest0 ∧ tsDate t = some loc.fileDate) := by
  constructor
  · intro day symbols channel root base rows hrows loc l hl
    obtain ⟨hdr2, hinv⟩ := store_quotes_trades_inv day symbols channel root base rows
    obtain ⟨hsym, hloc, _, ds, hds, hprov⟩ := hinv.1 loc l hl
    have hyear : loc.year = day.year := by rw [hloc]; simp [qtLoc]
    have hmonth : loc.month = day.month := by rw [hloc]; simp [qtLoc]
    have hfd : loc.fileDate = day := by rw [hloc]; simp [qtLoc]
    refine ⟨by rw [hyear, hfd], by rw [hmonth, hfd], ?_⟩
    intro r hr hrne
    rw [hds] at hr
    rcases List.mem_cons.mp hr with hr0 | hr1
    · exact absurd hr0 hrne
    · obtain ⟨q, hq, hqs, hqr⟩ := hprov _ hr1
      refine ⟨normTs q.ts, q.sym :: q.rest, hqr, ?_⟩
      rw [hfd]
      exact hrows q hq (by rw [hqs]; exact hsym)
  · intro root base symbol channel bar endD data hdata loc l hl
    have hinv := store_bars_fresh root base symbol channel bar endD data
    obtain ⟨hloc, ds, hds, hprov⟩ := hinv.1 loc l hl
    have hyear : loc.year = loc.fileDate.year := by
      conv at hloc => rw [barLoc]
      rw [hloc]
    have hmonth : loc.month = loc.fileDate.month := by
      conv at hloc => rw [barLoc]
      rw [hloc]
    refine ⟨hyear, hmonth, ?_⟩
    intro r hr hrne
    rw [hds] at hr
    rcases List.mem_cons.mp hr with hr0 | hr1
    · exact absurd hr0 hrne
    · obtain ⟨q, hq, hq1, _, hq3⟩ := hprov _ hr1
      refine ⟨q.ts, q.rest, hq3, ?_⟩
      rw [← hq1]
      exact hdata q hq

/-- C3, witness: a quote row timestamped 2021-03-09 stored under the
2021-03-09 path, and a bar row likewise. -/
theorem c3_witness :
    (∀ q ∈ ([⟨"2021-03-09D12:00:00.000", "AAA", []⟩] : List QTRow),
      q.sym ∈ ["AAA"] → tsDate (normTs q.ts) = some ⟨2021, 3, 9⟩) ∧
    ((qtLoc "R" "BITMEX" "AAA" "quote" ⟨2021, 3, 9⟩).year =
        (qtLoc "R" "BITMEX" "AAA" "quote" ⟨2021, 3, 9⟩).fileDate.year ∧
      (qtLoc "R" "BITMEX" "AAA" "quote" ⟨2021, 3, 9⟩).month =
        (qtLoc "R" "BITMEX" "AAA" "quote" ⟨2021, 3, 9⟩).fileDate.month ∧
      ∀ r ∈ [quotes_header, ["2021-03-09T12:00:00.000", "AAA"]],
        r ≠ chanHeader "quote" →
        ∃ t rest0, r = t :: rest0 ∧
          tsDate t = some (qtLoc "R" "BITMEX" "AAA" "quote" ⟨2021, 3, 9⟩).fileDate) :=
  ⟨by decide,
   c3_partition_correctness.1 ⟨2021, 3, 9⟩ ["AAA"] "quote" "R" "BITMEX"
     [⟨"2021-03-09D12:00:00.000", "AAA", []⟩] (by decide)
     (qtLoc "R" "BITMEX" "AAA" "quote" ⟨2021, 3, 9⟩)
     [quotes_header, ["2021-03-09T12:00:00.000", "AAA"]] (by decide)⟩

/-- C9: for every row parsed from a daily archive, the first occurrence
of `D` in the timestamp field is replaced by `T` before the row is
persisted; `2021-03-09D12:00:00.000` is stored as
`2021-03-09T12:00:00.000`, and every non-header row of every output file
is a normalized input row. -/
theorem c9_timestamp_normalization :
    (∀ (a b : List Char), 'D' ∉ a →
      replaceFirstDT (a ++ 'D' :: b) = a ++ 'T' :: b) ∧
    normTs "2021-03-09D12:00:00.000" = "2021-03-09T12:00:00.000" ∧
    (∀ (day : Date) (symbols : List String) (channel root base : String)
        (rows : List QTRow) (loc : QTLoc) (l : List Row) (r : Row),
      lookupFS (store_quotes_trades day symbols channel root base rows []) loc = some l →
      r ∈ l → r ≠ chanHeader channel →
      ∃ q, q ∈ rows ∧ r = normTs q.ts :: q.sym :: q.rest) := by
  refine ⟨?_, by decide, ?_⟩
  · intro a b ha
    induction a with
    | nil => simp [replaceFirstDT]
    | cons c cs ih =>
      have hc : c ≠ 'D' := fun hc => ha (by rw [hc]; exact List.mem_cons_self _ _)
      have hcs : 'D' ∉ cs := fun h => ha (List.mem_cons_of_mem _ h)
      simp only [List.cons_append, replaceFirstDT, if_neg hc, List.append_eq]
      rw [ih hcs]
  · intro day symbols channel root base rows loc l r hl hr hrne
    obtain ⟨hdr2, hinv⟩ := store_quotes_trades_inv day symbols channel root base rows
    obtain ⟨_, _, _, ds, hds, hprov⟩ := hinv.1 loc l hl
    rw [hds] at hr
    rcases List.mem_cons.mp hr with hr0 | hr1
    · exact absurd hr0 hrne
    · obtain ⟨q, hq, _, hqr⟩ := hprov _ hr1
      exact ⟨q, hq, hqr⟩

/-- C9, witness: the stored data row of a concrete one-row archive is the
normalization of its input row. -/
theorem c9_witness :
    (["2021-03-09T12:00:00.000", "AAA"] : Row) ≠ chanHeader "quote" ∧
    ∃ q, q ∈ ([⟨"2021-03-09D12:00:00.000", "AAA", []⟩] : List QTRow) ∧
      (["2021-03-09T12:00:00.000", "AAA"] : Row) = normTs q.ts :: q.sym :: q.rest :=
  ⟨by decide,
   c9_timestamp_normalization.2.2 ⟨2021, 3, 9⟩ ["AAA"] "quote" "R" "BITMEX"
     [⟨"2021-03-09D12:00:00.000", "AAA", []⟩]
     (qtLoc "R" "BITMEX" "AAA" "quote" ⟨2021, 3, 9⟩)
     [quotes_header, ["2021-03-09T12:00:00.000", "AAA"]]
     ["2021-03-09T12:00:00.000", "AAA"] (by decide) (by decide) (by decide)⟩

/-- C8: on a chronologically ordered bar page, storing the page is the
same as storing only its rows dated at most `end`: rows past the end date
are discarded and all remaining rows are written. -/
theorem c8_end_boundary (root base symbol channel bar : String) (endD : Date) :
    ∀ (data : List BarRow) (h : Option Date) (fs : FS BarLoc),
      data.Pairwise (fun a b => Date.le a.date b.date) →
      (store_bars root base symbol channel bar endD data h fs).1 =
        (store_bars root base symbol channel bar endD
          (data.filter (fun q => decide (Date.le q.date endD))) h fs).1 := by
  intro data
  induction data with
  | nil =>
    intro h fs _
    rfl
  | cons q rest ih =>
    intro h fs hpw
    rw [List.pairwise_cons] at hpw
    obtain ⟨hhead, hrest⟩ := hpw
    by_cases hlt : Date.lt endD q.date
    · have hqf : decide (Date.le q.date endD) = false := by
        simp only [decide_eq_false_iff_not]
        intro hle
        exact ((Date.le_iff_not_lt q.date endD).mp hle) hlt
      have hrf : rest.filter (fun q => decide (Date.le q.date endD)) = [] := by
        rw [List.filter_eq_nil_iff]
        intro b hb
        simp only [decide_eq_true_eq]
        intro hle
        exact ((Date.le_iff_not_lt b.date endD).mp hle)
          (Date.lt_of_lt_of_le hlt (hhead b hb))
      rw [List.filter_cons_of_neg (by simp [hqf]), hrf]
      simp only [store_bars, if_pos hlt]
    · have hqt : decide (Date.le q.date endD) = true := by
        simp only [decide_eq_true_eq]
        exact (Date.le_iff_not_lt q.date endD).mpr hlt
      rw [List.filter_cons_of_pos (by simp [hqt])]
      by_cases hh : h = some q.date
      · simp only [store_bars, if_neg hlt, if_pos hh]
        exact ih h _ hrest
      · simp only [store_bars, if_neg hlt, if_neg hh]
        exact ih (some q.date) _ hrest

/-- C8, witness: the spec's boundary example, `end = 2021-03-10` with a
page dated 03-09, 03-10, 03-11 — storing it equals storing just the first
two rows. -/
theorem c8_witness :
    ([⟨"a", ⟨2021, 3, 9⟩, []⟩, ⟨"b", ⟨2021, 3, 10⟩, []⟩, ⟨"c", ⟨2021, 3, 11⟩, []⟩]
        : List BarRow).Pairwise (fun a b => Date.le a.date b.date) ∧
    (store_bars "R" "BITMEX" "X" "bars" "1d" ⟨2021, 3, 10⟩
      [⟨"a", ⟨2021, 3, 9⟩, []⟩, ⟨"b", ⟨2021, 3, 10⟩, []⟩, ⟨"c", ⟨2021, 3, 11⟩, []⟩]
      none []).1 =
    (store_bars "R" "BITMEX" "X" "bars" "1d" ⟨2021, 3, 10⟩
      (([⟨"a", ⟨2021, 3, 9⟩, []⟩, ⟨"b", ⟨2021, 3, 10⟩, []⟩, ⟨"c", ⟨2021, 3, 11⟩, []⟩]
        : List BarRow).filter (fun q => decide (Date.le q.date ⟨2021, 3, 10⟩)))
      none []).1 :=
  ⟨by decide,
   c8_end_boundary "R" "BITMEX" "X" "bars" "1d" ⟨2021, 3, 10⟩
     [⟨"a", ⟨2021, 3, 9⟩, []⟩, ⟨"b", ⟨2021, 3, 10⟩, []⟩, ⟨"c", ⟨2021, 3, 11⟩, []⟩]
     none [] (by decide)⟩

/-- C10: the first row of a page dated past `end` makes `_store_bars`
return early, skipping every remaining row of the page whatever its date;
only the rows before the first overshooting row are written, and the
returned header sentinel is `None`. -/
theorem c10_early_return (root base symbol channel bar : String) (endD : Date) :
    ∀ (pre : List BarRow) (q : BarRow) (rest0 : List BarRow) (h : Option Date)
      (fs : FS BarLoc),
      (∀ p ∈ pre, Date.le p.date endD) → Date.lt endD q.date →
      store_bars root base symbol channel bar endD (pre ++ q :: rest0) h fs =
        ((store_bars root base symbol channel bar endD pre h fs).1, none) := by
  intro pre
  induction pre with
  | nil =>
    intro q rest0 h fs _ hq
    simp only [List.nil_append, store_bars, if_pos hq]
  | cons p pre2 ih =>
    intro q rest0 h fs hpre hq
    have hp : ¬ Date.lt endD p.date :=
      (Date.le_iff_not_lt p.date endD).mp (hpre p (List.mem_cons_self _ _))
    by_cases hh : h = some p.date
    · simp only [List.cons_append, store_bars, if_neg hp, if_pos hh]
      exact ih q rest0 h _ (fun r hr => hpre r (List.mem_cons_of_mem _ hr)) hq
    · simp only [List.cons_append, store_bars, if_neg hp, if_neg hh]
      exact ih q rest0 (some p.date) _ (fun r hr => hpre r (List.mem_cons_of_mem _ hr)) hq

/-- C10, witness: a page whose third row overshoots `end = 2021-03-10`;
the fourth row is dated 03-09 — within range — yet is skipped. -/
theorem c10_witness :
    (∀ p ∈ ([⟨"a", ⟨2021, 3, 9⟩, []⟩, ⟨"b", ⟨2021, 3, 10⟩, []⟩] : List BarRow),
      Date.le p.date ⟨2021, 3, 10⟩) ∧
    Date.lt (⟨2021, 3, 10⟩ : Date) (⟨2021, 3, 11⟩ : Date) ∧
    store_bars "R" "BITMEX" "X" "bars" "1d" ⟨2021, 3, 10⟩
      ([⟨"a", ⟨2021, 3, 9⟩, []⟩, ⟨"b", ⟨2021, 3, 10⟩, []⟩] ++
        ⟨"c", ⟨2021, 3, 11⟩, []⟩ :: [⟨"d", ⟨2021, 3, 9⟩, []⟩]) none [] =
      ((store_bars "R" "BITMEX" "X" "bars" "1d" ⟨2021, 3, 10⟩
        [⟨"a", ⟨2021, 3, 9⟩, []⟩, ⟨"b", ⟨2021, 3, 10⟩, []⟩] none []).1, none) :=
  ⟨by decide, by decide,
   c10_early_return "R" "BITMEX" "X" "bars" "1d" ⟨2021, 3, 10⟩
     [⟨"a", ⟨2021, 3, 9⟩, []⟩, ⟨"b", ⟨2021, 3, 10⟩, []⟩]
     ⟨"c", ⟨2021, 3, 11⟩, []⟩ [⟨"d", ⟨2021, 3, 9⟩, []⟩] none [] (by decide) (by decide)⟩

theorem fetchDay_fatal (resp : Nat → Nat) (recent : Bool)
    (hresp : ∀ i, i < 10 → 400 ≤ resp i ∧ resp i ≠ 200)
    (h404 : resp 9 = 404 → recent = false) :
    ∀ (fuel j : Nat), j ≤ 9 → 10 - j ≤ fuel →
      fetchDay resp recent fuel j j = .fatal (resp 9) 10 := by
  intro fuel
  induction fuel with
  | zero =>
    intro j hj hf
    omega
  | succ f ih =>
    intro j hj hf
    obtain ⟨h400, h200⟩ := hresp j (by omega)
    simp only [fetchDay, if_neg h200]
    by_cases hj9 : j + 1 = 10
    · rw [if_pos hj9]
      have hj0 : j = 9 := by omega
      subst hj0
      have hcond : ¬ (resp 9 = 404 ∧ recent = true) := by
        rintro ⟨h4, hr⟩
        rw [h404 h4] at hr
        cases hr
      rw [if_neg hcond, if_pos h400]
    · rw [if_neg hj9]
      exact ih (j + 1) (by omega) (by omega)

/-- C4: with an archive source answering an HTTP error status on every
attempt for a day (outside the not-yet-available carve-out, e.g. always
500), the per-day loop issues exactly 10 requests, then
`raise_for_status` raises and no further day is attempted. -/
theorem c4_retry_exhaustion (resp : Date → Nat → Nat) (recent : Date → Bool)
    (endD d : Date) (fuelI fuelD : Nat)
    (hle : Date.le d endD) (hfI : 10 ≤ fuelI) (hfD : 1 ≤ fuelD)
    (hresp : ∀ i, i < 10 → 400 ≤ resp d i ∧ resp d i ≠ 200)
    (h404 : resp d 9 = 404 → recent d = false) :
    poll_quotes_trades resp recent endD fuelI fuelD d =
      (.httpError (resp d 9) d 10, [d]) := by
  obtain ⟨fD, rfl⟩ : ∃ fD, fuelD = fD + 1 := ⟨fuelD - 1, by omega⟩
  have hfetch := fetchDay_fatal (resp d) (recent d) hresp h404 fuelI 0 (by omega) (by omega)
  simp only [poll_quotes_trades, if_pos hle, hfetch]

/-- C4, witness: always-500 archive for 2021-03-09 with end 2021-03-12 —
the channel aborts with status 500 after exactly 10 requests, attempting
no later day. -/
theorem c4_witness :
    Date.le (⟨2021, 3, 9⟩ : Date) (⟨2021, 3, 12⟩ : Date) ∧
    poll_quotes_trades (fun _ _ => 500) (fun _ => false) ⟨2021, 3, 12⟩ 10 4 ⟨2021, 3, 9⟩
      = (.httpError 500 ⟨2021, 3, 9⟩ 10, [⟨2021, 3, 9⟩]) :=
  ⟨by decide,
   c4_retry_exhaustion (fun _ _ => 500) (fun _ => false) ⟨2021, 3, 12⟩ ⟨2021, 3, 9⟩ 10 4
     (by decide) (by decide) (by decide) (fun i _ => ⟨by norm_num, by norm_num⟩)
     (fun h => rfl)⟩

theorem fetchDay_notYet (resp : Nat → Nat) (recent : Bool)
    (hresp : ∀ i, i < 10 → resp i ≠ 200)
    (h404 : resp 9 = 404) (hrec : recent = true) :
    ∀ (fuel j : Nat), j ≤ 9 → 10 - j ≤ fuel →
      fetchDay resp recent fuel j j = .notYet 10 := by
  intro fuel
  induction fuel with
  | zero =>
    intro j hj hf
    omega
  | succ f ih =>
    intro j hj hf
    have h200 := hresp j (by omega)
    simp only [fetchDay, if_neg h200]
    by_cases hj9 : j + 1 = 10
    · rw [if_pos hj9]
      have hj0 : j = 9 := by omega
      subst hj0
      rw [if_pos ⟨h404, hrec⟩]
    · rw [if_neg hj9]
      exact ih (j + 1) (by omega) (by omega)

/-- C5: when all 10 attempts for a day fail, the 10th response is a 404
and the day is today or yesterday, the quotes/trades loop returns the
distinguished not-yet-available outcome instead of raising, and attempts
no later day. -/
theorem c5_not_yet_available (resp : Date → Nat → Nat) (recent : Date → Bool)
    (endD d : Date) (fuelI fuelD : Nat)
    (hle : Date.le d endD) (hfI : 10 ≤ fuelI) (hfD : 1 ≤ fuelD)
    (hresp : ∀ i, i < 10 → resp d i ≠ 200)
    (h404 : resp d 9 = 404) (hrec : recent d = true) :
    poll_quotes_trades resp recent endD fuelI fuelD d = (.notYetAvailable d, [d]) := by
  obtain ⟨fD, rfl⟩ : ∃ fD, fuelD = fD + 1 := ⟨fuelD - 1, by omega⟩
  have hfetch := fetchDay_notYet (resp d) (recent d) hresp h404 hrec fuelI 0
    (by omega) (by omega)
  simp only [poll_quotes_trades, if_pos hle, hfetch]

/-- C5, witness: requesting the archive for "today" (2021-03-09, marked
recent) against an always-404 source yields the not-yet-available
outcome, not a fatal error, and halts further days. -/
theorem c5_witness :
    Date.le (⟨2021, 3, 9⟩ : Date) (⟨2021, 3, 12⟩ : Date) ∧
    poll_quotes_trades (fun _ _ => 404) (fun _ => true) ⟨2021, 3, 12⟩ 10 4 ⟨2021, 3, 9⟩
      = (.notYetAvailable ⟨2021, 3, 9⟩, [⟨2021, 3, 9⟩]) :=
  ⟨by decide,
   c5_not_yet_available (fun _ _ => 404) (fun _ => true) ⟨2021, 3, 12⟩ ⟨2021, 3, 9⟩ 10 4
     (by decide) (by decide) (by decide) (fun i _ => by norm_num) rfl rfl⟩

/-- C6, counterexample.  The claim states a transient error unwinds only
its own channel and the operator always gets one status line per
requested channel.  `main` has no exception handling: with trades and
quotes requested and an always-500 archive, the `HTTPError` raised in the
trades channel propagates out of `main` — the quotes channel is never run
and no report is produced. -/
theorem c6_counterexample :
    runMain ["trades", "quotes"]
      (qtExcept (poll_quotes_trades (fun _ _ => 500) (fun _ => false)
        ⟨2021, 3, 12⟩ 10 4 ⟨2021, 3, 9⟩).1)
      (.ok "Success - all data downloaded and stored.")
      (.ok "Success - all data downloaded and stored.") = .error 500 := by
  rfl

/-- C6, amended.  The not-yet-available early termination is a returned
value, so it unwinds only its own channel: when every requested channel
returns a string (success or not-yet-available), `main` reports one line
per requested channel in trades, quotes, bars order.  But a fatal HTTP
error is an uncaught exception: it aborts `main` itself, skipping every
remaining channel and the final summary. -/
theorem c6_amended :
    (∀ (channels : List String) (vt vq vb : String),
      runMain channels (.ok vt) (.ok vq) (.ok vb) =
        .ok ((if "trades" ∈ channels then [("trades", vt)] else []) ++
             (if "quotes" ∈ channels then [("quotes", vq)] else []) ++
             (if "bars" ∈ channels then [("bars", vb)] else []))) ∧
    (∀ d, qtExcept (QTResult.notYetAvailable d) =
      .ok "Failed to download - data not (yet) available.") ∧
    (∀ (channels : List String) (s : Nat) (qu br : Except Nat String),
      "trades" ∈ channels →
      runMain channels (.error s) qu br = .error s) := by
  refine ⟨?_, fun d => rfl, ?_⟩
  · intro channels vt vq vb
    by_cases ht : "trades" ∈ channels <;>
      by_cases hq : "quotes" ∈ channels <;>
        by_cases hb : "bars" ∈ channels <;>
          simp [runMain, addChan, ht, hq, hb]
  · intro channels s qu br ht
    simp [runMain, addChan, ht]

/-- C6, witness for the amended theorem: a fatal trades error with quotes
also requested aborts the whole run with no report. -/
theorem c6_witness :
    ("trades" ∈ ["trades", "quotes"]) ∧
    runMain ["trades", "quotes"] (.error 500)
      (.ok "Success - all data downloaded and stored.")
      (.ok "Success - all data downloaded and stored.") = .error 500 :=
  ⟨by decide,
   c6_amended.2.2 ["trades", "quotes"] 500
     (.ok "Success - all data downloaded and stored.")
     (.ok "Success - all data downloaded and stored.") (by decide)⟩

theorem groupsChk_append : ∀ (a b : List BEvent) (c : Nat),
    groupsChk (a ++ b) c = (groupsChk a c && groupsChk b (groupEnd a c)) := by
  intro a
  induction a with
  | nil =>
    intro b c
    simp [groupsChk, groupEnd]
  | cons e a ih =>
    intro b c
    cases e with
    | request => simp [groupsChk, groupEnd, ih, Bool.and_assoc]
    | sleep s =>
      by_cases hs : 60 ≤ s <;> simp [groupsChk, groupEnd, hs, ih]

theorem groupEnd_append : ∀ (a b : List BEvent) (c : Nat),
    groupEnd (a ++ b) c = groupEnd b (groupEnd a c) := by
  intro a
  induction a with
  | nil =>
    intro b c
    simp [groupEnd]
  | cons e a ih =>
    intro b c
    cases e with
    | request => simp [groupEnd, ih]
    | sleep s => simp [groupEnd, ih]

theorem barsCursor_chk (resp : Nat → BarResp) (ndLim stride : Nat) :
    ∀ (fuel st req idx c : Nat), req ≤ 29 → c ≤ req + 1 →
      groupsChk (barsCursor resp ndLim stride fuel st req idx).1 c = true ∧
      groupEnd (barsCursor resp ndLim stride fuel st req idx).1 c ≤
        (barsCursor resp ndLim stride fuel st req idx).2.1 + 1 ∧
      (barsCursor resp ndLim stride fuel st req idx).2.1 ≤ 29 := by
  intro fuel
  induction fuel with
  | zero =>
    intro st req idx c hreq hc
    exact ⟨rfl, by simpa [barsCursor, groupEnd] using hc, hreq⟩
  | succ f ih =>
    intro st req idx c hreq hc
    by_cases hst : st < ndLim
    · simp only [barsCursor, if_pos hst]
      by_cases h30 : (req + 1) % 30 = 0
      · simp only [if_pos h30]
        cases hR : resp idx with
        | r429 =>
          simp only [hR]
          obtain ⟨h1, h2, h3⟩ := ih st 0 (idx + 1) 0 (by omega) (by omega)
          exact ⟨by simp [groupsChk, h1], by simpa [groupEnd] using h2, h3⟩
        | ok data =>
          cases data with
          | nil =>
            simp only [hR]
            obtain ⟨h1, h2, h3⟩ := ih (st + 1440) 0 (idx + 1) 1 (by omega) (by omega)
            exact ⟨by simp [groupsChk, h1], by simpa [groupEnd] using h2, h3⟩
          | cons d ds =>
            simp only [hR]
            obtain ⟨h1, h2, h3⟩ := ih (st + stride) 0 (idx + 1) 1 (by omega) (by omega)
            exact ⟨by simp [groupsChk, h1], by simpa [groupEnd] using h2, h3⟩
      · have hr29 : req + 1 ≤ 29 := by
          by_cases h : req + 1 = 30
          · rw [h] at h30
            simp at h30
          · omega
        simp only [if_neg h30]
        cases hR : resp idx with
        | r429 =>
          simp only [hR]
          obtain ⟨h1, h2, h3⟩ := ih st (req + 1) (idx + 1) 0 (by omega) (by omega)
          refine ⟨?_, by simpa [groupEnd] using h2, h3⟩
          simp [groupsChk, h1, decide_eq_true_eq]
          omega
        | ok data =>
          cases data with
          | nil =>
            simp only [hR]
            obtain ⟨h1, h2, h3⟩ := ih (st + 1440) (req + 1) (idx + 1) (c + 1)
              (by omega) (by omega)
            refine ⟨?_, by simpa [groupEnd] using h2, h3⟩
            simp [groupsChk, h1, decide_eq_true_eq]
            omega
          | cons d ds =>
            simp only [hR]
            obtain ⟨h1, h2, h3⟩ := ih (st + stride) (req + 1) (idx + 1) (c + 1)
              (by omega) (by omega)
            refine ⟨?_, by simpa [groupEnd] using h2, h3⟩
            simp [groupsChk, h1, decide_eq_true_eq]
            omega
    · simp only [barsCursor, if_neg hst]
      exact ⟨rfl, by simpa [groupEnd] using hc, hreq⟩

theorem pollBarsPairs_chk (resp : Nat → BarResp) (startMin ndLim fuel : Nat) :
    ∀ (strides : List Nat) (req idx c : Nat), req ≤ 29 → c ≤ req + 1 →
      groupsChk (pollBarsPairs resp startMin ndLim fuel strides req idx).1 c = true ∧
      groupEnd (pollBarsPairs resp startMin ndLim fuel strides req idx).1 c ≤
        (pollBarsPairs resp startMin ndLim fuel strides req idx).2.1 + 1 ∧
      (pollBarsPairs resp startMin ndLim fuel strides req idx).2.1 ≤ 29 := by
  intro strides
  induction strides with
  | nil =>
    intro req idx c hreq hc
    exact ⟨rfl, by simpa [pollBarsPairs, groupEnd] using hc, hreq⟩
  | cons stride rest ih =>
    intro req idx c hreq hc
    obtain ⟨h1, h2, h3⟩ := barsCursor_chk resp ndLim stride fuel startMin req idx c hreq hc
    obtain ⟨g1, g2, g3⟩ := ih
      (barsCursor resp ndLim stride fuel startMin req idx).2.1
      (barsCursor resp ndLim stride fuel startMin req idx).2.2
      (groupEnd (barsCursor resp ndLim stride fuel startMin req idx).1 c) h3 h2
    simp only [pollBarsPairs]
    refine ⟨?_, ?_, g3⟩
    · rw [groupsChk_append, h1, g1]
      rfl
    · rw [groupEnd_append]
      exact g2

theorem countIn_zero (lo : Nat) : ∀ (es : List BEvent) (t : Nat), lo + 60 ≤ t →
    countIn es t lo = 0 := by
  intro es
  induction es with
  | nil =>
    intro t _
    rfl
  | cons e es ih =>
    intro t ht
    cases e with
    | request =>
      simp only [countIn]
      rw [if_neg (by omega), ih t ht]
    | sleep s =>
      simp only [countIn]
      exact ih (t + s) (by omega)

theorem countIn_le (lo : Nat) : ∀ (es : List BEvent) (c t : Nat), c ≤ 30 →
    groupsChk es c = true →
    countIn es t lo ≤ if lo ≤ t then 30 - c else 30 := by
  intro es
  induction es with
  | nil =>
    intro c t hc _
    simp only [countIn]
    split <;> omega
  | cons e es ih =>
    intro c t hc hchk
    cases e with
    | request =>
      simp only [groupsChk, Bool.and_eq_true, decide_eq_true_eq] at hchk
      obtain ⟨hc1, hchk⟩ := hchk
      simp only [countIn]
      have hrec := ih (c + 1) t (by omega) hchk
      by_cases h1 : lo ≤ t ∧ t < lo + 60
      · rw [if_pos h1, if_pos h1.1]
        rw [if_pos h1.1] at hrec
        omega
      · rw [if_neg h1]
        by_cases h2 : lo ≤ t
        · rw [if_pos h2] at hrec ⊢
          omega
        · rw [if_neg h2] at hrec ⊢
          omega
    | sleep s =>
      simp only [groupsChk] at hchk
      by_cases hs : 60 ≤ s
      · rw [if_pos hs] at hchk
        simp only [countIn]
        by_cases h2 : lo ≤ t
        · rw [countIn_zero lo es (t + s) (by omega)]
          split <;> omega
        · have hrec := ih 0 (t + s) (by omega) hchk
          rw [if_neg h2]
          split at hrec <;> omega
      · rw [if_neg hs] at hchk
        simp only [countIn]
        have hrec := ih c (t + s) hc hchk
        by_cases h2 : lo ≤ t
        · rw [if_pos h2]
          rw [if_pos (by omega : lo ≤ t + s)] at hrec
          omega
        · rw [if_neg h2]
          split at hrec <;> omega

/-- C7, counterexample.  The claim states the bar fetcher sleeps 60
seconds after every 30th request, before the next one.  In `poll_bars`
the counter is incremented and tested before the request is issued, so
the sleep happens immediately before the 30th request (after the 29th):
in a run of consecutive non-empty pages, the event right after the 29th
request is the sleep, and the event right after the 30th request is the
31st request with no sleep in between. -/
theorem c7_counterexample :
    (afterNthReq (pollBarsTrace (fun _ => BarResp.ok [⟨"t", ⟨2021, 3, 9⟩, []⟩])
      ["X"] ["1m"] 0 15000 40) 28).head? = some (BEvent.sleep 60) ∧
    (afterNthReq (pollBarsTrace (fun _ => BarResp.ok [⟨"t", ⟨2021, 3, 9⟩, []⟩])
      ["X"] ["1m"] 0 15000 40) 29).head? = some BEvent.request := by
  constructor
  · rfl
  · rfl

/-- C7, amended.  `poll_bars` keeps one request counter shared across all
(symbol, resolution) pairs of the run, and sleeps 60 seconds immediately
before issuing the 30th, 60th, ... request (i.e. after every 29+30k-th
request), rate-limited retries counting as requests.  Consequently, with
requests instantaneous and only the `time.sleep` calls advancing the
clock, at most 30 bar-API requests are issued in any half-open rolling
60-second window. -/
theorem c7_amended (resp : Nat → BarResp) (symbols bars : List String)
    (startMin ndMin fuel lo : Nat) :
    countIn (pollBarsTrace resp symbols bars startMin ndMin fuel) 0 lo ≤ 30 := by
  obtain ⟨h1, _, _⟩ := pollBarsPairs_chk resp startMin (ndMin + 1440) fuel
    ((symbols.map (fun _ => bars.map barStrideMin)).flatten) 0 0 0
    (by omega) (by omega)
  have := countIn_le lo (pollBarsTrace resp symbols bars startMin ndMin fuel) 0 0
    (by omega) h1
  split at this <;> omega

end Bmex
